import Mathlib

/-!
Verification of the CAPM analysis pipeline (`src/main.py`) against its
natural-language specification.

The program is a linear pandas/scipy pipeline:
  prices --resample('M').last()--> monthly prices
         --pct_change().dropna()--> returns
         --(- rf_monthly)--> excess returns
         --scipy.stats.linregress--> (slope, intercept, r)
         --round / DataFrame--> report, sorted by Beta descending.

We shallowly embed each stage.  Machine floating-point numbers are modelled
by exact rationals together with the three IEEE-754 special values that the
pipeline can actually produce (`inf`, `-inf`, `nan`); rounding error is out
of scope (the spec states its numeric properties "within floating-point
tolerance", which exact rational arithmetic satisfies exactly).
-/

namespace CAPM

/-- Model of an IEEE-754 double as it flows through the pandas pipeline:
an exact finite rational, or one of the special values `inf`, `-inf`, `nan`
(the only specials the pipeline can create, via division by zero). -/
inductive FloatVal where
  | fin (q : ℚ)
  | inf
  | neginf
  | nan
deriving DecidableEq

/-- Test for the `nan` value (pandas `isna` on a float column). -/
def FloatVal.isNan : FloatVal → Bool
  | .nan => true
  | _ => false

/-- Apply a rational function to a finite value, preserving the special
values (used to model `round`, `* 12`, etc. acting on a float). -/
def FloatVal.mapFin (f : ℚ → ℚ) : FloatVal → FloatVal
  | .fin q => .fin (f q)
  | v => v

/-- One entry of pandas `pct_change`: `(cur - prev) / prev` under IEEE-754
semantics.  For a nonzero previous price this is the exact rational
fractional return; for `prev = 0` it is `cur / 0`, i.e. `nan` when
`cur = 0` and `±inf` otherwise. -/
def pctStep (prev cur : ℚ) : FloatVal :=
  if prev = 0 then
    if cur = 0 then .nan
    else if 0 < cur then .inf
    else .neginf
  else .fin ((cur - prev) / prev)

/-- pandas `Series.pct_change` (src/main.py line 33, per column): the first
entry is `nan` (no prior observation), entry `i ≥ 1` is
`(p[i] - p[i-1]) / p[i-1]`.  Empty series map to empty series. -/
def pct_change (ps : List ℚ) : List FloatVal :=
  match ps with
  | [] => []
  | _ :: t => .nan :: List.zipWith pctStep ps t

/-- pandas `Series.dropna` (src/main.py line 33): drop the `nan` entries,
keeping infinities (pandas does not treat `±inf` as missing by default). -/
def dropna (rs : List FloatVal) : List FloatVal :=
  rs.filter (fun v => !v.isNan)

/-- The row of `nan`s that `pct_change` produces for the first date of a
data frame, one per column. -/
def nanRow (r : List ℚ) : List FloatVal :=
  r.map (fun _ => FloatVal.nan)

/-- pandas `DataFrame.pct_change` (src/main.py line 33): `pctStep` applied
columnwise, represented row-major — row `i ≥ 1` of the result pairs row
`i-1` with row `i` elementwise, and row `0` is all-`nan`. -/
def pct_change_rows (rows : List (List ℚ)) : List (List FloatVal) :=
  match rows with
  | [] => []
  | r :: t => nanRow r :: List.zipWith (fun pr cr => List.zipWith pctStep pr cr) rows t

/-- pandas `DataFrame.dropna` with the default `how='any'`
(src/main.py line 33): a row is kept iff none of its entries is `nan`. -/
def dropna_rows (rs : List (List FloatVal)) : List (List FloatVal) :=
  rs.filter (fun row => row.all (fun v => !v.isNan))

/-- Model of `np.mean`: arithmetic mean of a sequence (`0` for the empty sequence,
which the callers below never produce because of scipy's emptiness guard). -/
def mean (xs : List ℚ) : ℚ :=
  xs.sum / xs.length

/-- Deviations from the mean, `x - x.mean()` in scipy's `linregress`. -/
def dev (xs : List ℚ) : List ℚ :=
  xs.map (fun a => a - mean xs)

/-- One entry of `np.cov(x, y, bias=1)` as used by scipy's `linregress`:
the average sum of products of deviations,
`ssxm = ssd x x`, `ssym = ssd y y`, `ssxym = ssd x y`. -/
def ssd (xs ys : List ℚ) : ℚ :=
  (List.zipWith (fun a b => a * b) (dev xs) (dev ys)).sum / xs.length

/-- The ways `scipy.stats.linregress` can raise `ValueError` on the inputs
this pipeline feeds it: an empty input array, all x values identical
(the spec's `ZeroVarianceError`), or arrays of different lengths
(rejected by `np.cov`). -/
inductive LinregressError where
  | emptyInput
  | allXIdentical
  | lengthMismatch
deriving DecidableEq

/-- The fields of the scipy `linregress` result that src/main.py consumes:
slope, intercept, and the square of the correlation `r_value` (the code
only ever uses `r_value ** 2`; `r` itself is `ssxym / sqrt(ssxm*ssym)`,
irrational in general, so the embedding carries its exact square).
Slope and intercept are floats: they are `nan` (IEEE `0/0`) in the one
single-observation case that slips past scipy's guards. -/
structure LinRes where
  slope : FloatVal
  intercept : FloatVal
  rsq : ℚ
deriving DecidableEq

/-- Model of `scipy.stats.linregress(x, y)` (src/main.py line 53).  Guards, in
scipy's order: empty inputs raise; `np.amax(x) == np.amin(x)` with more
than one point raises ("Cannot calculate a linear regression if all x
values are identical"); mismatched lengths are rejected by `np.cov`.
Then `slope = ssxym/ssxm`, `intercept = mean y - slope * mean x`, and
`r = ssxym/sqrt(ssxm*ssym)` with `r = 0` when `ssxm` or `ssym` is zero
(we record `r^2`; scipy's clamp of `r` into `[-1, 1]` is a guard against
floating-point drift and never binds in exact arithmetic, by the
Cauchy-Schwarz inequality). -/
def linregress (xs ys : List ℚ) : Except LinregressError LinRes :=
  if xs.length = 0 ∨ ys.length = 0 then .error .emptyInput
  else if xs.max? = xs.min? ∧ 1 < xs.length then .error .allXIdentical
  else if xs.length ≠ ys.length then .error .lengthMismatch
  else
    let ssxm := ssd xs xs
    let ssym := ssd ys ys
    let ssxym := ssd xs ys
    let rsq : ℚ := if ssxm = 0 ∨ ssym = 0 then 0 else ssxym ^ 2 / (ssxm * ssym)
    let slope : FloatVal := if ssxm = 0 then .nan else .fin (ssxym / ssxm)
    let intercept : FloatVal :=
      if ssxm = 0 then .nan else .fin (mean ys - ssxym / ssxm * mean xs)
    .ok ⟨slope, intercept, rsq⟩

/-- Modelled from the spec's words: the population covariance
`Cov(X,Y) = mean of (x_i - mean X) * (y_i - mean Y)`, written directly
from the textbook formula for comparison with the code's `ssd`. -/
def Cov (xs ys : List ℚ) : ℚ :=
  (List.zipWith (fun a b => (a - mean xs) * (b - mean ys)) xs ys).sum / xs.length

/-- Modelled from the spec's words: the population variance
`Var(X) = mean of (x_i - mean X)^2`. -/
def Var (xs : List ℚ) : ℚ :=
  (xs.map (fun a => (a - mean xs) ^ 2)).sum / xs.length

/-- Modelled from the spec's words: the square of the Pearson correlation
coefficient `Cov(X,Y) / (sqrt (Var X) * sqrt (Var Y))`; squaring removes
the square roots, leaving `Cov^2 / (Var X * Var Y)` exactly. -/
def pearson_sq (xs ys : List ℚ) : ℚ :=
  Cov xs ys ^ 2 / (Var xs * Var ys)

/-- Projection of a regression outcome onto the pair (Beta, R²) — the two
outputs the spec asserts are independent of the risk-free rate (the
intercept is deliberately excluded: it does shift with the rate). -/
def beta_rsq (e : Except LinregressError LinRes) :
    Except LinregressError (FloatVal × ℚ) :=
  Except.map (fun res => (res.slope, res.rsq)) e

/-- Python's `round` to the nearest integer, ties to even
(banker's rounding), on an exact rational. -/
def roundHalfEven (q : ℚ) : ℤ :=
  let f := ⌊q⌋
  let r := q - f
  if r < 1 / 2 then f
  else if 1 / 2 < r then f + 1
  else if f % 2 = 0 then f else f + 1

/-- Python's `round(x, d)` (src/main.py lines 63-65), modelled exactly on
the rational value: round `x * 10^d` half-to-even, scale back. -/
def roundTo (d : ℕ) (q : ℚ) : ℚ :=
  (roundHalfEven (q * 10 ^ d) : ℚ) / 10 ^ d

/-- One row of the results DataFrame (src/main.py lines 61-65):
the ticker plus `Beta` rounded to 2 decimals, annualized `Alpha` rounded
to 4, and `R-Squared` (`r_value ** 2`) rounded to 2. -/
structure CapmRow where
  stock : String
  beta : FloatVal
  alphaAnn : FloatVal
  rsq : ℚ
deriving DecidableEq

/-- The fixed annual risk-free rate of src/main.py line 37 (`0.04`). -/
def rf_annual : ℚ := 4 / 100

/-- The period risk-free rate (src/main.py lines 38-41): the annual rate
divided by 12 periods per year when `monthly`, else by 252 trading days. -/
def rf_period (monthly : Bool) : ℚ :=
  if monthly then rf_annual / 12 else rf_annual / 252

/-- Annualization factor for Alpha (src/main.py lines 56-59): 12 when
`monthly`, else 252 (simple scaling, not compounding). -/
def ppy (monthly : Bool) : ℚ :=
  if monthly then 12 else 252

/-- The symbol list handed to `yf.download` (src/main.py line 23): the
requested tickers with the benchmark appended. -/
def all_symbols (tickers : List String) (benchmark : String) : List String :=
  tickers ++ [benchmark]

/-- The regression loop of src/main.py lines 43-67 over the returns table
(column access by symbol name, as `returns[stock]`): for each ticker, in
list order, subtract the period risk-free rate from both the ticker's and
the benchmark's return column, regress, and append a rounded result row.
A scipy `ValueError` propagates and aborts the whole loop, which the
`Except` monad models. -/
def capm_rows (tickers : List String) (benchmark : String) (monthly : Bool)
    (returns : String → List ℚ) : Except LinregressError (List CapmRow) :=
  match tickers with
  | [] => .ok []
  | stock :: rest =>
    match linregress ((returns benchmark).map (fun r => r - rf_period monthly))
        ((returns stock).map (fun r => r - rf_period monthly)) with
    | .error e => .error e
    | .ok res =>
      match capm_rows rest benchmark monthly returns with
      | .error e => .error e
      | .ok rows =>
        .ok ({ stock := stock
               beta := res.slope.mapFin (roundTo 2)
               alphaAnn := res.intercept.mapFin (fun a => roundTo 4 (a * ppy monthly))
               rsq := roundTo 2 res.rsq } :: rows)

/-- Comparison used by numpy's argsort on a float column that contains no
`nan` (`nan` entries are separated out beforehand by pandas `nargsort`):
`-inf` below all finite values below `+inf`.  The `nan` cases are never
reached; they are given IEEE comparison semantics (always `false`). -/
def FloatVal.fle : FloatVal → FloatVal → Bool
  | .nan, _ => false
  | _, .nan => false
  | .neginf, _ => true
  | _, .neginf => false
  | _, .inf => true
  | .inf, _ => false
  | .fin a, .fin b => a ≤ b

/-- Stable insertion into a list sorted ascending by `Beta`. -/
def insertAscBeta (x : CapmRow) : List CapmRow → List CapmRow
  | [] => [x]
  | y :: ys => if x.beta.fle y.beta then x :: y :: ys else y :: insertAscBeta x ys

/-- Stable ascending sort by `Beta` (insertion sort).  numpy's
`argsort(kind='quicksort')` is an introsort that runs plain insertion sort
on partitions of at most 16 elements, so for tables of at most 16 rows —
the program sorts 10 — its permutation is exactly the stable one. -/
def sortAscBeta (rows : List CapmRow) : List CapmRow :=
  rows.foldr insertAscBeta []

/-- Model of `DataFrame.sort_values` on the Beta column, descending
(src/main.py line 79) as pandas `nargsort` implements it for small frames:
set the `nan`-Beta rows aside; because `ascending=False`, pre-reverse the
remaining rows, argsort them ascending (stably, see `sortAscBeta`), and
reverse the resulting order again — the double reversal makes the
descending sort stable, so rows tied on Beta keep their original input
order (pandas GH#6399); finally append the `nan` rows at the end in their
original order (`na_position='last'`). -/
def sort_values_beta_desc (rows : List CapmRow) : List CapmRow :=
  (sortAscBeta (rows.filter (fun r => !r.beta.isNan)).reverse).reverse
    ++ rows.filter (fun r => r.beta.isNan)

/-- The day index that a month-end (`'M'`) resample stamps on its output
rows.  The calendar is simplified to uniform 31-day months (month `m`,
days `0..30`); the varying month lengths of the real calendar play no
role in the resampling logic, which only groups by calendar month and
relabels to the month's last day. -/
def month_end_day : ℕ := 30

/-- One row of a date-indexed price frame: a calendar month, a day within
the month, and the row of column values (floats, so that the `NaN` rows
that resampling inserts for empty months are representable). -/
structure PRow where
  month : ℕ
  day : ℕ
  vals : List FloatVal
deriving DecidableEq

/-- Model of month-end resampling, `resample` then `last` (src/main.py line 29): for every
calendar month from the table's earliest to its latest (inclusive —
resampling produces a regular monthly index, so months with no
observations appear too), emit one row stamped on the month's last day,
holding the last observed row within that month, or an all-`NaN` row if
the month has no observations. -/
def resample_M_last (t : List PRow) : List PRow :=
  match t with
  | [] => []
  | r0 :: _ =>
    let months := t.map (fun r => r.month)
    let m0 := months.foldr min r0.month
    let m1 := months.foldr max r0.month
    (List.range (m1 + 1 - m0)).map (fun k =>
      let m := m0 + k
      match (t.filter (fun r => r.month = m)).getLast? with
      | some r => { month := m, day := month_end_day, vals := r.vals }
      | none => { month := m, day := month_end_day,
                  vals := r0.vals.map (fun _ => FloatVal.nan) })

/-! ## Helper lemmas -/

instance : Std.Antisymm (fun x1 x2 : ℚ => x1 ≤ x2) :=
  ⟨fun h1 h2 => le_antisymm h1 h2⟩

theorem max?_eq_some_iff_rat {a : ℚ} {xs : List ℚ} :
    xs.max? = some a ↔ a ∈ xs ∧ ∀ b ∈ xs, b ≤ a :=
  List.max?_eq_some_iff (fun x => le_refl x) (fun x y => max_choice x y)
    (fun _ _ _ => max_le_iff)

theorem min?_eq_some_iff_rat {a : ℚ} {xs : List ℚ} :
    xs.min? = some a ↔ a ∈ xs ∧ ∀ b ∈ xs, a ≤ b :=
  List.min?_eq_some_iff (fun x => le_refl x) (fun x y => min_choice x y)
    (fun _ _ _ => le_min_iff)

/-- scipy's degeneracy test `np.amax(x) == np.amin(x)` holds exactly when
all entries of the list coincide. -/
theorem max?_eq_min?_iff {xs : List ℚ} :
    xs.max? = xs.min? ↔ ∀ a ∈ xs, ∀ b ∈ xs, a = b := by
  cases xs with
  | nil => simp
  | cons x t =>
    constructor
    · intro h a ha b hb
      have hmax : (x :: t).max? = some (t.foldl max x) := List.max?_cons'
      have hmin : (x :: t).min? = some (t.foldl max x) := by rw [← h, hmax]
      obtain ⟨-, hub⟩ := max?_eq_some_iff_rat.mp hmax
      obtain ⟨-, hlb⟩ := min?_eq_some_iff_rat.mp hmin
      exact le_antisymm ((hub a ha).trans (hlb b hb))
        ((hub b hb).trans (hlb a ha))
    · intro h
      have hx : x ∈ x :: t := List.mem_cons_self x t
      have hmax : (x :: t).max? = some x :=
        max?_eq_some_iff_rat.mpr ⟨hx, fun b hb => le_of_eq (h b hb x hx)⟩
      have hmin : (x :: t).min? = some x :=
        min?_eq_some_iff_rat.mpr ⟨hx, fun b hb => le_of_eq (h x hx b hb)⟩
      rw [hmax, hmin]

theorem mean_of_all_eq {xs : List ℚ} {c : ℚ} (h : ∀ a ∈ xs, a = c)
    (hne : xs ≠ []) : mean xs = c := by
  have hsum : xs.sum = xs.length • c := List.sum_eq_card_nsmul xs c h
  have hlen : (xs.length : ℚ) ≠ 0 := by
    simpa using List.length_pos.mpr hne |>.ne'
  rw [mean, hsum, nsmul_eq_mul]
  field_simp

theorem Var_eq_zero_of_all_eq {xs : List ℚ} {c : ℚ} (h : ∀ a ∈ xs, a = c) :
    Var xs = 0 := by
  have hz : (xs.map (fun a => (a - mean xs) ^ 2)).sum = 0 := by
    apply List.sum_eq_zero
    intro y hy
    obtain ⟨a, ha, rfl⟩ := List.mem_map.mp hy
    have hne : xs ≠ [] := by rintro rfl; exact absurd ha (List.not_mem_nil a)
    rw [h a ha, mean_of_all_eq h hne, sub_self, zero_pow (by norm_num)]
  rw [Var, hz, zero_div]

theorem sum_map_sub_const (xs : List ℚ) (r : ℚ) :
    (xs.map (fun a => a - r)).sum = xs.sum - xs.length * r := by
  induction xs with
  | nil => simp
  | cons x t ih => simp only [List.map_cons, List.sum_cons, ih,
      List.length_cons, Nat.cast_succ]; ring

theorem mean_shift {xs : List ℚ} (r : ℚ) (hne : xs ≠ []) :
    mean (xs.map (fun a => a - r)) = mean xs - r := by
  have hlen : (xs.length : ℚ) ≠ 0 := by
    simpa using List.length_pos.mpr hne |>.ne'
  rw [mean, List.length_map, sum_map_sub_const, sub_div, mean,
    mul_comm, mul_div_assoc, div_self hlen, mul_one]

theorem dev_shift (xs : List ℚ) (r : ℚ) :
    dev (xs.map (fun a => a - r)) = dev xs := by
  rcases eq_or_ne xs [] with rfl | hne
  · simp [dev]
  · rw [dev, dev, mean_shift r hne, List.map_map]
    exact List.map_congr_left (fun a _ => by simp only [Function.comp_apply]; ring)

theorem ssd_shift (xs ys : List ℚ) (r : ℚ) :
    ssd (xs.map (fun a => a - r)) (ys.map (fun a => a - r)) = ssd xs ys := by
  rw [ssd, dev_shift, dev_shift, List.length_map, ssd]

/-- The code's `ssxym` (from `np.cov(x, y, bias=1)`) is the textbook
population covariance. -/
theorem ssd_eq_Cov (xs ys : List ℚ) : ssd xs ys = Cov xs ys := by
  rw [ssd, Cov, dev, dev, List.zipWith_map]

/-- The code's `ssxm` is the textbook population variance of x. -/
theorem ssd_self_eq_Var (xs : List ℚ) : ssd xs xs = Var xs := by
  rw [ssd, Var, dev, List.zipWith_map, List.zipWith_same]
  congr 1
  exact congrArg _ (List.map_congr_left (fun a _ => (sq (a - mean xs)).symm))

/-- A row of returns computed from nonzero previous prices contains no
`nan` (each entry is a finite rational). -/
theorem pctStep_row_all_not_nan (a : List ℚ) (h : ∀ q ∈ a, q ≠ 0) :
    ∀ b : List ℚ, (List.zipWith pctStep a b).all (fun v => !v.isNan) = true := by
  induction a with
  | nil => intro b; simp
  | cons x xs ih =>
    intro b
    cases b with
    | nil => simp
    | cons y ys =>
      rw [List.zipWith_cons_cons, List.all_cons]
      have hx : pctStep x y = .fin ((y - x) / x) :=
        if_neg (h x (List.mem_cons_self x xs))
      rw [hx]
      exact ih (fun q hq => h q (List.mem_cons_of_mem x hq)) ys

/-- A `nan` row over at least one column fails `dropna`'s keep test. -/
theorem nanRow_all_not_nan_false {r : List ℚ} (h : r ≠ []) :
    (nanRow r).all (fun v => !v.isNan) = false := by
  cases r with
  | nil => exact absurd rfl h
  | cons x t => simp [nanRow, FloatVal.isNan]

theorem keep_zipWith_pct (as bs : List (List ℚ))
    (ha : ∀ r ∈ as, ∀ q ∈ r, q ≠ 0) :
    ∀ row ∈ List.zipWith (fun pr cr => List.zipWith pctStep pr cr) as bs,
      (row.all (fun v => !v.isNan)) = true := by
  induction as generalizing bs with
  | nil => simp
  | cons a as ih =>
    cases bs with
    | nil => simp
    | cons b bs =>
      intro row hrow
      rw [List.zipWith_cons_cons, List.mem_cons] at hrow
      rcases hrow with rfl | hrow
      · exact pctStep_row_all_not_nan a (ha a (List.mem_cons_self a as)) b
      · exact ih bs (fun r hr => ha r (List.mem_cons_of_mem a hr)) row hrow

/-- On a frame of nonzero prices with a nonempty first row, the returns
construction `pct_change().dropna()` is exactly the elementwise fractional
return of each consecutive pair of rows: the all-`nan` first row is the
only row dropped. -/
theorem dropna_pct_change_rows_eq (r0 : List ℚ) (t : List (List ℚ))
    (h0 : r0 ≠ [])
    (hnz : ∀ r ∈ r0 :: t, ∀ q ∈ r, q ≠ 0) :
    dropna_rows (pct_change_rows (r0 :: t)) =
      List.zipWith (fun pr cr => List.zipWith pctStep pr cr) (r0 :: t) t := by
  rw [pct_change_rows, dropna_rows, List.filter_cons,
    nanRow_all_not_nan_false h0]
  simp only [Bool.false_eq_true, if_neg, ite_false]
  exact List.filter_eq_self.mpr (keep_zipWith_pct (r0 :: t) t hnz)

/-! ## Claims -/

/-- C1: for every price frame with n ≥ 2 rows of k ≥ 1 nonzero prices,
`pct_change().dropna()` produces exactly n−1 return rows; the return at
row i, column j is the fractional return
`(price[i+1][j] - price[i][j]) / price[i][j]`, equivalently
`(1 + return) * price[i][j] = price[i+1][j]`; only the first (all-`nan`)
row is dropped, uniformly for all symbols. -/
theorem claim_C1 (rows : List (List ℚ)) (k : ℕ) (hk : 0 < k)
    (hw : ∀ r ∈ rows, r.length = k)
    (hnz : ∀ r ∈ rows, ∀ q ∈ r, q ≠ 0)
    (hn : 2 ≤ rows.length) :
    (dropna_rows (pct_change_rows rows)).length = rows.length - 1 ∧
    ∀ i j, i + 1 < rows.length → j < k →
      ((dropna_rows (pct_change_rows rows)).getD i []).getD j FloatVal.nan =
        .fin (((rows.getD (i+1) []).getD j 0 - (rows.getD i []).getD j 0) /
          (rows.getD i []).getD j 0) ∧
      (1 + ((rows.getD (i+1) []).getD j 0 - (rows.getD i []).getD j 0) /
          (rows.getD i []).getD j 0) * (rows.getD i []).getD j 0 =
        (rows.getD (i+1) []).getD j 0 := by
  obtain ⟨r0, t, rfl⟩ : ∃ r0 t, rows = r0 :: t := by
    cases rows with
    | nil => simp at hn
    | cons a b => exact ⟨a, b, rfl⟩
  have h0 : r0 ≠ [] := by
    intro hr0
    have := hw r0 (List.mem_cons_self r0 t)
    rw [hr0] at this
    simp at this
    omega
  have hkey := dropna_pct_change_rows_eq r0 t h0 hnz
  have hlen : (List.zipWith (fun pr cr => List.zipWith pctStep pr cr)
      (r0 :: t) t).length = t.length := by
    rw [List.length_zipWith]
    simp
  refine ⟨by rw [hkey, hlen]; simp, ?_⟩
  intro i j hi hj
  have hit : i < t.length := by
    simp only [List.length_cons] at hi
    omega
  have hi1 : i + 1 < (r0 :: t).length := hi
  have hi0 : i < (r0 :: t).length := by simp; omega
  have hiz : i < (List.zipWith (fun pr cr => List.zipWith pctStep pr cr)
      (r0 :: t) t).length := by rw [hlen]; exact hit
  have hmemP : (r0 :: t)[i] ∈ r0 :: t := List.getElem_mem hi0
  have hmemC : (r0 :: t)[i+1] ∈ r0 :: t := List.getElem_mem hi1
  have hjP : j < ((r0 :: t)[i]).length := by rw [hw _ hmemP]; exact hj
  have hjC : j < ((r0 :: t)[i+1]).length := by rw [hw _ hmemC]; exact hj
  have hjz : j < (List.zipWith pctStep (r0 :: t)[i] (r0 :: t)[i+1]).length := by
    rw [List.length_zipWith, hw _ hmemP, hw _ hmemC]
    exact lt_min hj hj
  have hti : t[i] = (r0 :: t)[i+1] := (List.getElem_cons_succ r0 t i hi1).symm
  have hnzP : ((r0 :: t)[i]).getD j 0 ≠ 0 := by
    rw [List.getD_eq_getElem _ _ hjP]
    exact hnz _ hmemP _ (List.getElem_mem hjP)
  have hret : ((dropna_rows (pct_change_rows (r0 :: t))).getD i []).getD j
      FloatVal.nan = pctStep (((r0 :: t)[i]).getD j 0) (((r0 :: t)[i+1]).getD j 0) := by
    rw [hkey, List.getD_eq_getElem _ _ hiz, List.getElem_zipWith, hti,
      List.getD_eq_getElem _ _ hjz, List.getElem_zipWith,
      List.getD_eq_getElem _ _ hjP, List.getD_eq_getElem _ _ hjC]
  rw [List.getD_eq_getElem (r0 :: t) [] hi0, List.getD_eq_getElem (r0 :: t) [] hi1,
    List.getD_eq_getElem _ 0 hjP, List.getD_eq_getElem _ 0 hjC]
  rw [List.getD_eq_getElem _ 0 hjP] at hnzP
  rw [List.getD_eq_getElem _ 0 hjP, List.getD_eq_getElem _ 0 hjC] at hret
  constructor
  · rw [hret]
    simp only [pctStep]
    rw [if_neg hnzP]
  · field_simp

/-- C1 witness: the AAPL price series [100, 110, 121] as a one-column
frame yields exactly the two fractional returns promised by C1. -/
theorem claim_C1_witness :
    (dropna_rows (pct_change_rows [[100], [110], [121]])).length =
      ([[(100:ℚ)], [110], [121]] : List (List ℚ)).length - 1 ∧
    ∀ i j, i + 1 < ([[(100:ℚ)], [110], [121]] : List (List ℚ)).length → j < 1 →
      ((dropna_rows (pct_change_rows [[100], [110], [121]])).getD i []).getD j
          FloatVal.nan =
        .fin (((([[(100:ℚ)], [110], [121]] : List (List ℚ)).getD (i+1) []).getD j 0 -
            (([[(100:ℚ)], [110], [121]] : List (List ℚ)).getD i []).getD j 0) /
          (([[(100:ℚ)], [110], [121]] : List (List ℚ)).getD i []).getD j 0) ∧
      (1 + ((([[(100:ℚ)], [110], [121]] : List (List ℚ)).getD (i+1) []).getD j 0 -
            (([[(100:ℚ)], [110], [121]] : List (List ℚ)).getD i []).getD j 0) /
          (([[(100:ℚ)], [110], [121]] : List (List ℚ)).getD i []).getD j 0) *
          (([[(100:ℚ)], [110], [121]] : List (List ℚ)).getD i []).getD j 0 =
        (([[(100:ℚ)], [110], [121]] : List (List ℚ)).getD (i+1) []).getD j 0 :=
  claim_C1 [[100], [110], [121]] 1 (by norm_num)
    (by intro r hr; simp only [List.mem_cons] at hr
        rcases hr with rfl | rfl | rfl | h <;> simp_all)
    (by intro r hr; simp only [List.mem_cons] at hr
        rcases hr with rfl | rfl | rfl | h <;> simp_all)
    (by norm_num)

/-- C2: on equal-length series of length ≥ 2 with Var(X) ≠ 0, the
regression returns slope `Cov(X,Y)/Var(X)`, intercept
`mean Y − slope · mean X`, and R² equal to the square of the Pearson
correlation coefficient, `Cov(X,Y)² / (Var X · Var Y)`. -/
theorem claim_C2 (xs ys : List ℚ) (hlen : xs.length = ys.length)
    (h2 : 2 ≤ xs.length) (hvar : Var xs ≠ 0) :
    linregress xs ys =
      .ok ⟨.fin (Cov xs ys / Var xs),
           .fin (mean ys - Cov xs ys / Var xs * mean xs),
           pearson_sq xs ys⟩ := by
  have hxne : xs ≠ [] := by
    intro h
    rw [h] at h2
    simp at h2
  have hguard : ¬(xs.max? = xs.min? ∧ 1 < xs.length) := by
    rintro ⟨hmm, -⟩
    obtain ⟨x0, hx0⟩ := List.exists_mem_of_ne_nil xs hxne
    have hall : ∀ a ∈ xs, a = x0 :=
      fun a ha => max?_eq_min?_iff.mp hmm a ha x0 hx0
    exact hvar (Var_eq_zero_of_all_eq hall)
  rw [linregress, if_neg (by omega), if_neg hguard, if_neg (by omega)]
  simp only [ssd_self_eq_Var, ssd_eq_Cov]
  rw [if_neg hvar, if_neg hvar]
  rcases eq_or_ne (Var ys) 0 with hvy | hvy
  · rw [if_pos (Or.inr hvy), pearson_sq, hvy, mul_zero, div_zero]
  · rw [if_neg (by tauto), pearson_sq]

/-- C2 witness: X = [0, 1], Y = [0, 2] has Var(X) = 1/4 ≠ 0 and the
regression returns slope 2, intercept 0, R² = 1. -/
theorem claim_C2_witness :
    linregress [0, 1] [0, 2] =
      .ok ⟨.fin (Cov [0, 1] [0, 2] / Var [0, 1]),
           .fin (mean [0, 2] - Cov [0, 1] [0, 2] / Var [0, 1] * mean [0, 1]),
           pearson_sq [0, 1] [0, 2]⟩ :=
  claim_C2 [0, 1] [0, 2] (by norm_num) (by norm_num)
    (by norm_num [Var, mean])

/-- C3: when all benchmark excess returns are identical (so Var(X) = 0)
and there are at least two samples, the regression fails with scipy's
identical-x `ValueError` — the spec's `ZeroVarianceError` — rather than
producing a numeric result. -/
theorem claim_C3 (xs ys : List ℚ) (c : ℚ) (hconst : ∀ a ∈ xs, a = c)
    (h2 : 2 ≤ xs.length) (hys : ys ≠ []) :
    linregress xs ys = .error .allXIdentical := by
  have hyl : ys.length ≠ 0 := by
    simpa using List.length_pos.mpr hys |>.ne'
  rw [linregress, if_neg (by omega),
    if_pos ⟨max?_eq_min?_iff.mpr
      (fun a ha b hb => (hconst a ha).trans (hconst b hb).symm), by omega⟩]

/-- C3 witness: constant benchmark excess returns [1, 1] against [2, 3]
produce the identical-x error. -/
theorem claim_C3_witness :
    linregress [1, 1] [2, 3] = .error .allXIdentical :=
  claim_C3 [1, 1] [2, 3] 1
    (by intro a ha; simp only [List.mem_cons] at ha
        rcases ha with rfl | rfl | h <;> simp_all)
    (by norm_num) (by simp)

/-- C4 counterexample: on prices AAPL = [100, 110, 121],
SPY = [100, 105, 110.25] the monthly returns are indeed
AAPL = [0.10, 0.10] and SPY = [0.05, 0.05] — but then the benchmark
excess-return series is constant, so `linregress` raises the identical-x
`ValueError` instead of returning Beta = 2.0, Alpha = 0.0, R² = 1.0
(with period risk-free rate 0, excess returns equal the returns). -/
theorem claim_C4_cx :
    dropna_rows (pct_change_rows [[100, 100], [110, 105], [121, 441/4]]) =
      [[.fin (1/10), .fin (1/20)], [.fin (1/10), .fin (1/20)]] ∧
    linregress [1/20, 1/20] [1/10, 1/10] = .error .allXIdentical := by
  constructor
  · norm_num [pct_change_rows, dropna_rows, pctStep, nanRow, FloatVal.isNan]
  · norm_num [linregress, List.max?, List.min?]

/-- C4 amended: the pipeline on those prices produces the monthly returns
the claim states, but the regression step then fails with the
zero-variance (identical-x) error for every period risk-free rate —
in particular both for the claim's rate 0 and the code's fixed 0.04/12 —
because the SPY excess-return series is constant; no Beta/Alpha/R² is
produced. -/
theorem claim_C4_amended : ∀ r : ℚ,
    dropna_rows (pct_change_rows [[100, 100], [110, 105], [121, 441/4]]) =
      [[.fin (1/10), .fin (1/20)], [.fin (1/10), .fin (1/20)]] ∧
    linregress (List.map (fun x => x - r) [1/20, 1/20])
      (List.map (fun y => y - r) [1/10, 1/10]) = .error .allXIdentical := by
  intro r
  constructor
  · norm_num [pct_change_rows, dropna_rows, pctStep, nanRow, FloatVal.isNan]
  · simp only [List.map_cons, List.map_nil]
    rw [linregress, if_neg (by norm_num),
      if_pos ⟨max?_eq_min?_iff.mpr (by
        intro a ha b hb
        simp only [List.mem_cons, List.not_mem_nil, or_false] at ha hb
        rcases ha with rfl | rfl <;> rcases hb with rfl | rfl <;> rfl),
        by norm_num⟩]

/-- C5 counterexample: with a zero price followed by a nonzero one, the
returns construction raises nothing — it silently yields an infinite
return, which `dropna` keeps (pandas only drops `nan`). -/
theorem claim_C5_cx : dropna (pct_change [0, 1]) = [FloatVal.inf] := by
  norm_num [pct_change, dropna, pctStep, FloatVal.isNan]

/-- C5 amended: the returns construction never signals an error; whenever
some price `p[i]` is exactly zero and `p[i+1]` is positive, the output
silently contains the IEEE value `inf` (it would be `-inf` for a negative
successor, and a `nan` — which `dropna` then removes — when both are
zero). -/
theorem claim_C5_amended (ps : List ℚ) (i : ℕ) (hi : i + 1 < ps.length)
    (h0 : ps.getD i 0 = 0) (hpos : 0 < ps.getD (i+1) 0) :
    FloatVal.inf ∈ dropna (pct_change ps) := by
  obtain ⟨p, t, rfl⟩ : ∃ p t, ps = p :: t := by
    cases ps with
    | nil => simp at hi
    | cons a b => exact ⟨a, b, rfl⟩
  have hit : i < t.length := by
    simp only [List.length_cons] at hi
    omega
  have hi0 : i < (p :: t).length := by simp; omega
  have hiz : i < (List.zipWith pctStep (p :: t) t).length := by
    rw [List.length_zipWith]
    simp
    omega
  rw [List.getD_eq_getElem _ 0 hi0] at h0
  rw [List.getD_eq_getElem _ 0 hi] at hpos
  have hstep : (List.zipWith pctStep (p :: t) t)[i] = FloatVal.inf := by
    rw [List.getElem_zipWith]
    have hti : t[i] = (p :: t)[i+1] := (List.getElem_cons_succ p t i hi).symm
    rw [hti, h0, pctStep]
    rw [if_pos rfl, if_neg (ne_of_gt hpos), if_pos hpos]
  apply List.mem_filter.mpr
  refine ⟨?_, rfl⟩
  rw [pct_change]
  exact List.mem_cons_of_mem _ (hstep ▸ List.getElem_mem hiz)

/-- C5 witness: the two-observation series [0, 1] puts `inf` in the
returns output. -/
theorem claim_C5_witness : FloatVal.inf ∈ dropna (pct_change [0, 1]) :=
  claim_C5_amended [0, 1] 0 (by norm_num) (by norm_num) (by norm_num)

/-- C6 counterexample: a single-observation series does not make the
returns construction fail — it successfully produces the empty return
series (`pct_change` yields the lone `nan` row, `dropna` removes it). -/
theorem claim_C6_cx : dropna (pct_change [100]) = [] := by
  simp [pct_change, dropna, FloatVal.isNan]

/-- C6 amended: with fewer than 2 observations the returns construction
does not fail; it returns the empty series, and the run only aborts later
when the regression receives the empty arrays and raises scipy's
"Inputs must not be empty" `ValueError`. -/
theorem claim_C6_amended (ps : List ℚ) (h : ps.length < 2) :
    dropna (pct_change ps) = [] ∧ linregress [] [] = .error .emptyInput := by
  refine ⟨?_, by rw [linregress]; simp⟩
  cases ps with
  | nil => rfl
  | cons p t =>
    cases t with
    | nil => simp [pct_change, dropna, FloatVal.isNan]
    | cons q u => simp only [List.length_cons] at h; omega

/-- C6 witness: the single-observation series [100]. -/
theorem claim_C6_witness :
    dropna (pct_change [100]) = [] ∧ linregress [] [] = .error .emptyInput :=
  claim_C6_amended [100] (by norm_num)

theorem sortAscBeta_const (c : ℚ) : ∀ rows : List CapmRow,
    (∀ r ∈ rows, r.beta = .fin c) → sortAscBeta rows = rows := by
  intro rows
  induction rows with
  | nil => intro _; rfl
  | cons x t ih =>
    intro h
    have hx := h x (List.mem_cons_self x t)
    have ht := ih (fun r hr => h r (List.mem_cons_of_mem x hr))
    show insertAscBeta x (sortAscBeta t) = x :: t
    rw [ht]
    cases t with
    | nil => rfl
    | cons y ys =>
      have hy := h y (List.mem_cons_of_mem x (List.mem_cons_self y ys))
      rw [insertAscBeta, hx, hy]
      simp [FloatVal.fle]

/-- C7 counterexample: two rows tied on Beta whose symbols enter in the
non-lexical order BBB, AAA leave the descending Beta sort still as
BBB, AAA — the sort is stable on ties and never consults the symbol, so
tied instruments do not appear in lexical symbol order ("AAA" < "BBB"). -/
theorem claim_C7_cx :
    sort_values_beta_desc
      [⟨"BBB", .fin 1, .fin 0, 0⟩, ⟨"AAA", .fin 1, .fin 0, 0⟩] =
      [⟨"BBB", .fin 1, .fin 0, 0⟩, ⟨"AAA", .fin 1, .fin 0, 0⟩] ∧
    "AAA".data < "BBB".data := by
  constructor
  · norm_num [sort_values_beta_desc, sortAscBeta, insertAscBeta,
      FloatVal.fle, FloatVal.isNan]
  · decide

/-- C7 amended: the sort is deterministic, but ties on the sorted field
keep their original input order (pandas' descending sort is stable by a
double reversal around the stable ascending argsort), with no lexical
re-ordering of symbols; in particular a report whose rows all share one
Beta value is returned unchanged. -/
theorem claim_C7_amended (rows : List CapmRow) (c : ℚ)
    (h : ∀ r ∈ rows, r.beta = .fin c) :
    sort_values_beta_desc rows = rows := by
  have h1 : rows.filter (fun r => !r.beta.isNan) = rows :=
    List.filter_eq_self.mpr (fun r hr => by rw [h r hr]; rfl)
  have h2 : rows.filter (fun r => r.beta.isNan) = [] :=
    List.filter_eq_nil_iff.mpr (fun r hr => by rw [h r hr]; simp [FloatVal.isNan])
  have hrev : ∀ r ∈ rows.reverse, r.beta = .fin c :=
    fun r hr => h r (List.mem_reverse.mp hr)
  rw [sort_values_beta_desc, h1, h2,
    sortAscBeta_const c rows.reverse hrev, List.reverse_reverse,
    List.append_nil]

/-- C7 witness: a two-row all-tied report comes back unchanged. -/
theorem claim_C7_witness :
    sort_values_beta_desc
      [⟨"A", .fin 1, .fin 0, 0⟩, ⟨"B", .fin 1, .fin 0, 0⟩] =
      [⟨"A", .fin 1, .fin 0, 0⟩, ⟨"B", .fin 1, .fin 0, 0⟩] :=
  claim_C7_amended [⟨"A", .fin 1, .fin 0, 0⟩, ⟨"B", .fin 1, .fin 0, 0⟩] 1
    (by intro r hr
        simp only [List.mem_cons, List.not_mem_nil, or_false] at hr
        rcases hr with rfl | rfl <;> rfl)

theorem foldr_min_eq_of_le {l : List ℕ} {a : ℕ} (h : ∀ x ∈ l, a ≤ x) :
    l.foldr min a = a := by
  induction l with
  | nil => rfl
  | cons x t ih =>
    rw [List.foldr_cons, ih (fun y hy => h y (List.mem_cons_of_mem x hy))]
    exact min_eq_right (h x (List.mem_cons_self x t))

theorem foldr_max_le {l : List ℕ} {a b : ℕ} (hub : ∀ x ∈ l, x ≤ b)
    (hab : a ≤ b) : l.foldr max a ≤ b := by
  induction l with
  | nil => exact hab
  | cons x t ih =>
    rw [List.foldr_cons]
    exact max_le (hub x (List.mem_cons_self x t))
      (ih (fun y hy => hub y (List.mem_cons_of_mem x hy)))

theorem foldr_max_eq {l : List ℕ} {a b : ℕ} (hmem : b ∈ l)
    (hub : ∀ x ∈ l, x ≤ b) (hab : a ≤ b) : l.foldr max a = b := by
  induction l with
  | nil => simp at hmem
  | cons x t ih =>
    rw [List.foldr_cons]
    rcases List.mem_cons.mp hmem with rfl | hbt
    · exact max_eq_left
        (foldr_max_le (fun y hy => hub y (List.mem_cons_of_mem b hy)) hab)
    · rw [ih hbt (fun y hy => hub y (List.mem_cons_of_mem x hy))]
      exact max_eq_right (hub x (List.mem_cons_self x t))

/-- C8 counterexample: a table whose two rows sit on month-ends of months
0 and 2 is month-end aligned, yet resampling does not return it unchanged:
pandas emits a row for every month in the covered range, so the empty
month 1 appears as an all-`NaN` row. -/
theorem claim_C8_cx :
    resample_M_last [⟨0, 30, [.fin 1]⟩, ⟨2, 30, [.fin 2]⟩] =
      [⟨0, 30, [.fin 1]⟩, ⟨1, 30, [.nan]⟩, ⟨2, 30, [.fin 2]⟩] ∧
    resample_M_last [⟨0, 30, [.fin 1]⟩, ⟨2, 30, [.fin 2]⟩] ≠
      [⟨0, 30, [.fin 1]⟩, ⟨2, 30, [.fin 2]⟩] := by
  constructor <;> norm_num [resample_M_last, month_end_day, List.range_succ]

/-- C8 amended: month-end resampling is idempotent on tables that are
month-end aligned AND gap-free — one row on the month-end of each of a
consecutive run of months; such tables are returned unchanged.  (A gap
month breaks the fixed-point property only by gaining an all-`NaN` row,
see the counterexample.) -/
theorem claim_C8_amended (n m0 : ℕ) (V : ℕ → List FloatVal) :
    resample_M_last ((List.range (n+1)).map (fun k =>
      ⟨m0 + k, month_end_day, V k⟩)) =
      (List.range (n+1)).map (fun k => ⟨m0 + k, month_end_day, V k⟩) := by
  have hcons : (List.range (n+1)).map (fun k : ℕ =>
        (⟨m0 + k, month_end_day, V k⟩ : PRow)) =
      (⟨m0, month_end_day, V 0⟩ : PRow) ::
        (List.range n).map (fun k : ℕ =>
          (⟨m0 + (k+1), month_end_day, V (k+1)⟩ : PRow)) := by
    rw [List.range_succ_eq_map, List.map_cons, List.map_map]
    rfl
  conv_lhs => rw [hcons]
  rw [resample_M_last]
  rw [← hcons]
  dsimp only
  have hmm : List.map (fun r : PRow => r.month)
      ((List.range (n+1)).map (fun k : ℕ =>
        (⟨m0 + k, month_end_day, V k⟩ : PRow))) =
      (List.range (n+1)).map (fun k => m0 + k) := by
    rw [List.map_map]
    rfl
  rw [hmm]
  have hmin : ((List.range (n+1)).map (fun k => m0 + k)).foldr min m0 = m0 :=
    foldr_min_eq_of_le (by
      intro x hx
      obtain ⟨k, -, rfl⟩ := List.mem_map.mp hx
      exact Nat.le_add_right m0 k)
  have hmax : ((List.range (n+1)).map (fun k => m0 + k)).foldr max m0 = m0 + n :=
    foldr_max_eq
      (List.mem_map.mpr ⟨n, List.mem_range.mpr (Nat.lt_succ_self n), rfl⟩)
      (by
        intro x hx
        obtain ⟨k, hk, rfl⟩ := List.mem_map.mp hx
        exact Nat.add_le_add_left (Nat.lt_succ_iff.mp (List.mem_range.mp hk)) m0)
      (Nat.le_add_right m0 n)
  rw [hmin, hmax]
  have hrange : m0 + n + 1 - m0 = n + 1 := by omega
  rw [hrange]
  apply List.map_congr_left
  intro k hk
  have hfilter : List.filter (fun r => decide (r.month = m0 + k))
      (List.map (fun j : ℕ =>
        ({ month := m0 + j, day := month_end_day, vals := V j } : PRow))
        (List.range (n + 1))) =
      [({ month := m0 + k, day := month_end_day, vals := V k } : PRow)] := by
    rw [List.filter_map]
    have hcongr : List.filter ((fun r : PRow => decide (r.month = m0 + k)) ∘
        (fun j : ℕ =>
          ({ month := m0 + j, day := month_end_day, vals := V j } : PRow)))
        (List.range (n + 1)) =
        List.filter (fun j => decide (j = k)) (List.range (n + 1)) :=
      List.filter_congr (fun j _ => decide_eq_decide.mpr Nat.add_left_cancel_iff)
    rw [hcongr, List.filter_eq,
      List.count_eq_one_of_mem (List.nodup_range (n+1)) hk,
      List.replicate_one, List.map_cons, List.map_nil]
  rw [hfilter]
  rfl

/-- Subtracting one constant from every entry of both series changes
neither the error behaviour of the regression nor its slope and R². -/
theorem beta_rsq_shift (xs ys : List ℚ) (r : ℚ) :
    beta_rsq (linregress (xs.map (fun a => a - r)) (ys.map (fun a => a - r))) =
      beta_rsq (linregress xs ys) := by
  have hg2 : (xs.map (fun a => a - r)).max? = (xs.map (fun a => a - r)).min? ↔
      xs.max? = xs.min? := by
    rw [max?_eq_min?_iff, max?_eq_min?_iff]
    constructor
    · intro h a ha b hb
      exact sub_left_inj.mp
        (h (a - r) (List.mem_map.mpr ⟨a, ha, rfl⟩)
          (b - r) (List.mem_map.mpr ⟨b, hb, rfl⟩))
    · intro h a ha b hb
      obtain ⟨x, hx, rfl⟩ := List.mem_map.mp ha
      obtain ⟨y, hy, rfl⟩ := List.mem_map.mp hb
      rw [h x hx y hy]
  rw [linregress, linregress]
  simp only [List.length_map]
  by_cases h0 : xs.length = 0 ∨ ys.length = 0
  · rw [if_pos h0, if_pos h0]
  · rw [if_neg h0, if_neg h0]
    by_cases h1 : xs.max? = xs.min? ∧ 1 < xs.length
    · rw [if_pos ⟨hg2.mpr h1.1, h1.2⟩, if_pos h1]
    · rw [if_neg (fun hc => h1 ⟨hg2.mp hc.1, hc.2⟩), if_neg h1]
      by_cases h2 : xs.length ≠ ys.length
      · rw [if_pos h2, if_pos h2]
      · rw [if_neg h2, if_neg h2]
        simp only [ssd_shift, beta_rsq, Except.map]

/-- C9: the computed Beta and R² do not depend on the (constant) period
risk-free rate subtracted from both series — two runs that differ only in
the rate agree on the regression's error behaviour, slope, and R²; only
the intercept (Alpha) depends on the rate. -/
theorem claim_C9 (xs ys : List ℚ) (r1 r2 : ℚ) :
    beta_rsq (linregress (xs.map (fun a => a - r1))
        (ys.map (fun a => a - r1))) =
      beta_rsq (linregress (xs.map (fun a => a - r2))
        (ys.map (fun a => a - r2))) :=
  (beta_rsq_shift xs ys r1).trans (beta_rsq_shift xs ys r2).symm

/-- C10: when the per-run pipeline succeeds, its report has exactly one
row per requested ticker, keyed by that ticker and in input-list order;
the benchmark — although appended to the download list — is never
regressed as a row of the report (whenever it is not itself among the
requested tickers). -/
theorem claim_C10 (tickers : List String) (benchmark : String)
    (monthly : Bool) (returns : String → List ℚ) (report : List CapmRow)
    (h : capm_rows tickers benchmark monthly returns = .ok report) :
    report.map (fun r => r.stock) = tickers ∧
    (benchmark ∉ tickers → ∀ r ∈ report, r.stock ≠ benchmark) ∧
    benchmark ∈ all_symbols tickers benchmark := by
  have key : report.map (fun r => r.stock) = tickers := by
    induction tickers generalizing report with
    | nil =>
      rw [capm_rows] at h
      injection h with h2
      rw [← h2]
      rfl
    | cons s rest ih =>
      rw [capm_rows] at h
      cases hres : linregress
          ((returns benchmark).map (fun r => r - rf_period monthly))
          ((returns s).map (fun r => r - rf_period monthly)) with
      | error e => rw [hres] at h; cases h
      | ok res =>
        rw [hres] at h
        cases hrows : capm_rows rest benchmark monthly returns with
        | error e => rw [hrows] at h; cases h
        | ok rows =>
          rw [hrows] at h
          injection h with h2
          rw [← h2, List.map_cons]
          exact congrArg (List.cons s) (ih rows hrows)
  refine ⟨key, ?_, List.mem_append_right _ (List.mem_cons_self _ _)⟩
  intro hb r hr heq
  apply hb
  have hmem := List.mem_map_of_mem (fun r => r.stock) hr
  rw [key] at hmem
  simp only at hmem
  rw [heq] at hmem
  exact hmem

/-- C10 witness: one ticker "A" against benchmark "B"; the pipeline
succeeds and the report is the single row keyed "A", in input order, with
the benchmark fetched but absent from the report. -/
theorem claim_C10_witness :
    (([⟨"A", .fin 2, .fin 0, 1⟩] : List CapmRow).map (fun r => r.stock) =
      ["A"]) ∧
    ("B" ∉ ["A"] → ∀ r ∈ ([⟨"A", .fin 2, .fin 0, 1⟩] : List CapmRow),
      r.stock ≠ "B") ∧
    "B" ∈ all_symbols ["A"] "B" :=
  claim_C10 ["A"] "B" true
    (fun s => if s = "B" then [1/300, 31/300] else [1/300, 61/300])
    [⟨"A", .fin 2, .fin 0, 1⟩]
    (by
      have hab : ¬("A" : String) = "B" := by decide
      simp only [capm_rows, hab, if_neg, if_true, if_false, ite_true,
        ite_false, reduceIte]
      norm_num [linregress, ssd, dev, mean, rf_period, rf_annual, ppy,
        roundTo, roundHalfEven, FloatVal.mapFin, List.max?, List.min?])

end CAPM
